import Mathlib

/-!
Verification of the ibaqpy peptide-normalization pipeline.

This file shallowly embeds the pure computational core of the repository:
the streaming protein-support tracker, the streaming quantile-normalization
state, the msstats per-run accumulators, the uniprot-accession parser, the
canonical-peptide derivation, the best-peptidoform selection, the
low-frequency peptide filter, and the batch-correction sample-id handling.
Python strings that are inspected character by character are modelled as
`List Char`; Python dicts as association lists; fallible code as `Except`.

Sources:
- bin/peptide_normalization_stream.py
- ibaq/peptide_normalization.py
- ibaqpy/commands/correct_batches.py
-/

/-- Convert a Lean string literal to the `List Char` model of Python strings. -/
def pstr (s : String) : List Char := s.toList

/-! ## Generic association-list operations (model of Python `dict`)

Python dicts preserve insertion order: assignment to an existing key updates
the value in place, assignment to a new key appends, and `pop` removes the
entry. -/

/-- `d[k] = v` on a Python dict: replace in place if the key exists, else append. -/
def insertKey {α β : Type} [DecidableEq α] (t : List (α × β)) (k : α) (v : β) :
    List (α × β) :=
  if t.any (fun r => r.1 = k) then
    t.map (fun r => if r.1 = k then (k, v) else r)
  else
    t ++ [(k, v)]

/-- `d.pop(k)` on a Python dict: remove the entry with the given key. -/
def eraseKey {α β : Type} [DecidableEq α] : List (α × β) → α → List (α × β)
  | [], _ => []
  | r :: rest, k => if r.1 = k then eraseKey rest k else r :: eraseKey rest k

/-- `d[k]` / `k in d` on a Python dict: find the value stored at a key. -/
def lookupKey {α β : Type} [DecidableEq α] (t : List (α × β)) (k : α) :
    Option β :=
  match t with
  | [] => none
  | r :: rest => if r.1 = k then some r.2 else lookupKey rest k

/-- Helper for `uniqueInOrder`: drop elements already seen. -/
def uniqueInOrderAux {α : Type} [DecidableEq α] (seen : List α) :
    List α → List α
  | [] => []
  | x :: rest =>
    if seen.contains x then uniqueInOrderAux seen rest
    else x :: uniqueInOrderAux (x :: seen) rest

/-- Distinct elements of a list in order of first appearance
(the key order of a Python dict or of `pandas.unique`). -/
def uniqueInOrder {α : Type} [DecidableEq α] (l : List α) : List α :=
  uniqueInOrderAux [] l

/-- `Except` values can be compared for equality when both components can. -/
instance {ε α : Type} [DecidableEq ε] [DecidableEq α] :
    DecidableEq (Except ε α) := fun x y =>
  match x, y with
  | Except.error a, Except.error b =>
      if h : a = b then Decidable.isTrue (by rw [h])
      else Decidable.isFalse (by intro hc; cases hc; exact h rfl)
  | Except.error _, Except.ok _ => Decidable.isFalse (by intro hc; cases hc)
  | Except.ok _, Except.error _ => Decidable.isFalse (by intro hc; cases hc)
  | Except.ok a, Except.ok b =>
      if h : a = b then Decidable.isTrue (by rw [h])
      else Decidable.isFalse (by intro hc; cases hc; exact h rfl)

/-! ## Streaming quantile normalization (bin/peptide_normalization_stream.py)

Pass 1 (lines 466-490): per sample, sort the non-null intensities
descending; rank `i` of the global `quantile` dict is updated with the
incremental mean; ranks beyond the sample's length are untouched; ranks
beyond the current dict length are created with count 1.

Freeze (line 617): `norm_intensity = {k: v[0] for k, v in quantile.items()}`.

Pass 2 (lines 551-567): per sample, the distinct non-null values sorted
descending are mapped positionally to the frozen rank averages; each row
value is replaced by its mapped reference value, or missing when unmapped. -/

/-- `recalculate` from bin/peptide_normalization_stream.py line 468:
incremental mean update of one rank of the quantile state. -/
def recalculate (original : ℚ) (count : ℕ) (value : ℚ) : ℚ × ℕ :=
  ((original * (count : ℚ) + value) / ((count : ℚ) + 1), count + 1)

/-- Insert a value into a descending-sorted list (model of
`sort_values(ascending=False)` applied via insertion sort). -/
def insertDesc (x : ℚ) : List ℚ → List ℚ
  | [] => [x]
  | y :: ys => if y < x then x :: y :: ys else y :: insertDesc x ys

/-- Sort a list of rationals in descending order. -/
def sortDesc (xs : List ℚ) : List ℚ := xs.foldr insertDesc []

/-- One pass-1 update of the quantile state by a sorted-descending value
vector `dic` (bin/peptide_normalization_stream.py lines 478-490). The state
is the list of `(running average, running count)` pairs indexed by rank. -/
def foldSampleSorted (q : List (ℚ × ℕ)) (dic : List ℚ) : List (ℚ × ℕ) :=
  if q.isEmpty then dic.map (fun v => (v, 1))
  else
    (List.zipWith (fun p v => recalculate p.1 p.2 v) q dic)
      ++ q.drop dic.length
      ++ (dic.drop q.length).map (fun v => (v, 1))

/-- Fold one sample's raw (possibly missing) intensity column into the
quantile state: `dropna`, sort descending, then update rank by rank. -/
def foldSample (q : List (ℚ × ℕ)) (values : List (Option ℚ)) : List (ℚ × ℕ) :=
  foldSampleSorted q (sortDesc (values.filterMap id))

/-- The frozen per-rank reference averages
(bin/peptide_normalization_stream.py line 617). -/
def normIntensityOf (q : List (ℚ × ℕ)) : List ℚ := q.map (fun p => p.1)

/-- Pass-2 mapping (bin/peptide_normalization_stream.py lines 551-567):
the sample's distinct values sorted descending are paired positionally with
the frozen rank averages (every rank used here is below the quantile length,
since the quantile state was fed every sample's full value vector); each row
value is looked up in that mapping, unmapped rows become missing. -/
def applyQnorm (normIntensity : List ℚ) (values : List (Option ℚ)) :
    List (Option ℚ) :=
  let refKeys := sortDesc (uniqueInOrder (values.filterMap id))
  let refDict := List.zip refKeys normIntensity
  values.map (fun v => v.bind (fun x => lookupKey refDict x))

/-! ## msstats per-run accumulation (bin/peptide_normalization_stream.py)

Pass 1 (lines 452-465): per sample, rows are grouped by (Run, Channel) (or
(Run, Fraction) for label-free) and each group's intensity list is merged
into the process-wide dict `group_intensities`.  The merge for an existing
key reads `group_intensities[NORM_INTENSITY]` — the literal column-name
string, not the group key — so a recurring key raises `KeyError`.  Python
dict keys are dynamically typed, so the key space is modelled as a sum of
group tuples and plain strings. -/

/-- A Python dict key as used by the msstats accumulator: either a
`(Run, Channel)` group tuple or a plain string. -/
inductive PyKey : Type where
  | tup (run : String) (channel : String)
  | str (s : String)
deriving DecidableEq

/-- The constant `NORM_INTENSITY` (column name string used as a dict key
by the buggy line 464). -/
def normIntensityKey : PyKey := PyKey.str "NormIntensity"

/-- One group merge (bin/peptide_normalization_stream.py lines 460-465):
new keys are inserted; for an existing key the code evaluates
`group_intensities[NORM_INTENSITY] + group_intensity`, which raises
`KeyError` unless the string key is itself present in the dict. -/
def accumGroup (gi : List (PyKey × List ℚ)) (name : PyKey) (vals : List ℚ) :
    Except String (List (PyKey × List ℚ)) :=
  if (lookupKey gi name).isSome then
    match lookupKey gi normIntensityKey with
    | some prev => Except.ok (insertKey gi name (prev ++ vals))
    | none => Except.error "KeyError: NormIntensity"
  else
    Except.ok (insertKey gi name vals)

/-- Pass-1 msstats processing of one sample: group the rows by their
(Run, Channel) key and merge each group's intensity list in turn. -/
def processSampleMsstats (gi : List (PyKey × List ℚ))
    (rows : List ((String × String) × ℚ)) :
    Except String (List (PyKey × List ℚ)) :=
  (uniqueInOrder (rows.map (fun r => r.1))).foldlM
    (fun acc k =>
      accumGroup acc (PyKey.tup k.1 k.2)
        ((rows.filter (fun r => r.1 = k)).map (fun r => r.2)))
    gi

/-- The whole pass-1 msstats accumulation over the per-sample files. -/
def msstatsPass1 (samples : List (List ((String × String) × ℚ))) :
    Except String (List (PyKey × List ℚ)) :=
  samples.foldlM processSampleMsstats []

/-! ## Character-level string operations

Python string methods used by the sources, modelled on `List Char`:
`str.split(sep)` for a one-character separator, `sep.join`, `str.count`,
and substring containment (`in`). -/

/-- Python `s.split(sep)` for a one-character separator: always returns at
least one (possibly empty) piece; empty pieces are kept. -/
def splitOnChar (sep : Char) : List Char → List (List Char)
  | [] => [[]]
  | c :: rest =>
    if c = sep then [] :: splitOnChar sep rest
    else
      match splitOnChar sep rest with
      | [] => [[c]]
      | p :: ps => (c :: p) :: ps

/-- Python `sep.join(pieces)` for a one-character separator. -/
def joinWith (sep : Char) : List (List Char) → List Char
  | [] => []
  | [p] => p
  | p :: ps => p ++ sep :: joinWith sep ps

/-- Python `s.count(ch)` for a one-character argument. -/
def countChar (ch : Char) (s : List Char) : ℕ :=
  (s.filter (fun c => c = ch)).length

/-- Does `s` start with `pat`? -/
def startsWithList (s pat : List Char) : Bool :=
  match s, pat with
  | _, [] => true
  | [], _ :: _ => false
  | c :: s', d :: t' => decide (c = d) && startsWithList s' t'

/-- Python `pat in s`: substring containment. -/
def containsList (s pat : List Char) : Bool :=
  startsWithList s pat ||
    match s with
    | [] => false
    | _ :: rest => containsList rest pat

/-! ## Uniprot accession parsing

Both sources split the field on `;`, rewrite each accession that contains
exactly two `|` characters, and re-join with `;` — but
bin/peptide_normalization_stream.py (lines 18-31) keeps `split("|")[2]`
(the trailing name segment) while ibaq/peptide_normalization.py
(lines 59-72) keeps `split("|")[1]` (the middle id segment). -/

/-- Per-accession rewrite of bin/peptide_normalization_stream.py line 28-29:
two pipes → third pipe-separated segment. -/
def parse_one_accession_stream (acc : List Char) : List Char :=
  if countChar '|' acc = 2 then (splitOnChar '|' acc).getD 2 [] else acc

/-- Per-accession rewrite of ibaq/peptide_normalization.py lines 69-70:
two pipes → second pipe-separated segment. -/
def parse_one_accession_ibaq (acc : List Char) : List Char :=
  if countChar '|' acc = 2 then (splitOnChar '|' acc).getD 1 [] else acc

/-- `parse_uniprot_accession` from bin/peptide_normalization_stream.py. -/
def parse_uniprot_accession_stream (uniprotId : List Char) : List Char :=
  joinWith ';' ((splitOnChar ';' uniprotId).map parse_one_accession_stream)

/-- `parse_uniprot_accession` from ibaq/peptide_normalization.py. -/
def parse_uniprot_accession_ibaq (uniprotId : List Char) : List Char :=
  joinWith ';' ((splitOnChar ';' uniprotId).map parse_one_accession_ibaq)

/-! ## Label resolution (design resolver)

Three implementations: module-level `get_label`
(ibaq/peptide_normalization.py lines 125-159), `Feature.get_label`
(ibaq/peptide_normalization.py lines 366-403), and the inline logic of
`extract_label_from_sdrf` (bin/peptide_normalization_stream.py lines
116-165).  The Python `labels` argument is the set of distinct label
values; it is modelled as a duplicate-free list.  `exit(...)` is modelled
as `none`. -/

/-- Modelled from the spec: the fixed channel tables `TMT16plex`,
`TMT11plex`, `TMT10plex`, `TMT6plex`, `ITRAQ8plex`, `ITRAQ4plex` live in
ibaq/ibaqpy_commons.py, which is not part of the sources; the claims only
depend on which table is chosen, so each table is an opaque constant. -/
inductive ChoiceDict : Type where
  | tmt16plex
  | tmt11plex
  | tmt10plex
  | tmt6plex
  | itraq8plex
  | itraq4plex
deriving DecidableEq

/-- Shared TMT/ITRAQ plex selection (identical in all three sources). -/
def chooseTmt (labels : List (List Char)) : ChoiceDict :=
  if 11 < labels.length
      || labels.contains (pstr ("TMT134N"))
      || labels.contains (pstr ("TMT133C"))
      || labels.contains (pstr ("TMT133N"))
      || labels.contains (pstr ("TMT132C"))
      || labels.contains (pstr ("TMT132N")) then
    ChoiceDict.tmt16plex
  else if labels.length = 11 || labels.contains (pstr ("TMT131C")) then
    ChoiceDict.tmt11plex
  else if 6 < labels.length then ChoiceDict.tmt10plex
  else ChoiceDict.tmt6plex

/-- Shared ITRAQ plex selection (identical in all three sources). -/
def chooseItraq (labels : List (List Char)) : ChoiceDict :=
  if 4 < labels.length then ChoiceDict.itraq8plex else ChoiceDict.itraq4plex

/-- `get_label` from ibaq/peptide_normalization.py lines 125-159. -/
def get_label (labels : List (List Char)) :
    Option ((List Char) × Option ChoiceDict) :=
  let joined := joinWith ',' labels
  if labels.length = 1 then some (pstr ("LFQ"), none)
  else if containsList joined (pstr ("TMT"))
      || containsList joined (pstr ("tmt")) then
    some (pstr ("TMT"), some (chooseTmt labels))
  else if containsList joined (pstr ("ITRAQ"))
      || containsList joined (pstr ("itraq")) then
    some (pstr ("ITRAQ"), some (chooseItraq labels))
  else none

/-- `Feature.get_label` from ibaq/peptide_normalization.py lines 366-403:
the single-label branch additionally requires the joined labels to contain
`LABEL FREE` or `label free`. -/
def Feature_get_label (labels : List (List Char)) :
    Option ((List Char) × Option ChoiceDict) :=
  let joined := joinWith ',' labels
  if labels.length = 1
      ∧ (containsList joined (pstr ("LABEL FREE"))
          || containsList joined (pstr ("label free"))) then
    some (pstr ("LFQ"), none)
  else if containsList joined (pstr ("TMT"))
      || containsList joined (pstr ("tmt")) then
    some (pstr ("TMT"), some (chooseTmt labels))
  else if containsList joined (pstr ("ITRAQ"))
      || containsList joined (pstr ("itraq")) then
    some (pstr ("ITRAQ"), some (chooseItraq labels))
  else none

/-- The label/choice resolution of `extract_label_from_sdrf` from
bin/peptide_normalization_stream.py lines 120-162. -/
def extract_label_from_sdrf_label (labels : List (List Char)) :
    Option ((List Char) × Option ChoiceDict) :=
  let joined := joinWith ',' labels
  if labels.length = 1 then some (pstr ("LFQ"), none)
  else if containsList joined (pstr ("TMT"))
      || containsList joined (pstr ("tmt")) then
    some (pstr ("TMT"), some (chooseTmt labels))
  else if containsList joined (pstr ("ITRAQ"))
      || containsList joined (pstr ("itraq")) then
    some (pstr ("ITRAQ"), some (chooseItraq labels))
  else none

/-! ## Protein support tracker (bin/peptide_normalization_stream.py)

Per batch (lines 411-419): among rows whose canonical peptide maps to
exactly one distinct protein within the batch, propose peptide → protein;
merging into the global `unique_peptides` dict pops the entry when the
existing value differs, and otherwise assigns.  After ingestion
(lines 421-427), proteins whose value-occurrence count reaches
`min_unique` are the strong proteins.  A batch row is modelled by its
(canonical peptide, protein name) pair, the only columns this computation
reads. -/

/-- The protein names of a batch's rows for one canonical peptide. -/
def protsOf (batch : List (String × String)) (pep : String) : List String :=
  (batch.filter (fun r => r.1 = pep)).map (fun r => r.2)

/-- The `unique_dict` of one batch (lines 411-414): peptides mapping to
exactly one distinct protein within the batch, paired with that protein. -/
def proposalsOf (batch : List (String × String)) : List (String × String) :=
  ((uniqueInOrder (batch.map (fun r => r.1))).filter
      (fun pep => (uniqueInOrder (protsOf batch pep)).length = 1)).map
    (fun pep => (pep, (protsOf batch pep).headD ""))

/-- The merge of one proposed pair into `unique_peptides` (lines 415-419):
pop on conflict, assign otherwise. -/
def mergeProposal (t : List (String × String)) (prop : String × String) :
    List (String × String) :=
  match lookupKey t prop.1 with
  | some b => if prop.2 ≠ b then eraseKey t prop.1 else insertKey t prop.1 prop.2
  | none => insertKey t prop.1 prop.2

/-- Merge one batch's proposals into the global table. -/
def mergeBatch (t : List (String × String)) (batch : List (String × String)) :
    List (String × String) :=
  (proposalsOf batch).foldl mergeProposal t

/-- The full ingestion pass over all batches, starting from the empty
table. -/
def ingestBatches (batches : List (List (String × String))) :
    List (String × String) :=
  batches.foldl mergeBatch []

/-- Strong proteins (lines 421-427): proteins whose occurrence count among
the surviving mapping's values is at least `min_unique`. -/
def strongProteinsOf (t : List (String × String)) (minUnique : ℕ) :
    List String :=
  (uniqueInOrder (t.map (fun r => r.2))).filter
    (fun prot => minUnique ≤ (t.map (fun r => r.2)).count prot)

/-! ## Low-frequency peptide filter (bin/peptide_normalization_stream.py)

Lines 652-656 accumulate `peptides_count` per sample — but the dict
comprehension rebuilds the dict from the current sample's peptides only,
dropping every peptide absent from the current sample.  Lines 691-700
compute the kept peptides.  Lines 704-717 filter and export each sample,
with `del strong_peptides` inside the loop (line 710), which makes the
second iteration fail on an unbound local; the deletable binding is
modelled by an `Option` consumed by the first iteration. -/

/-- `min_sample` (line 694). -/
def minSampleOf (sampleNumber : ℕ) : ℕ := if 1 < sampleNumber then 1 else 0

/-- The `peptides_count` accumulation (lines 652-656): each sample REBUILDS
the dict from its own (already unique) peptide list, reading the previous
count for peptides it contains and silently dropping all others. -/
def buildPeptidesCount (samplePeptides : List (List String)) :
    List (String × ℕ) :=
  samplePeptides.foldl
    (fun old peps =>
      (uniqueInOrder peps).map (fun pep => (pep, (lookupKey old pep).getD 0 + 1)))
    []

/-- `strong_peptides` (lines 692-700): peptides whose count `v` satisfies
`v / sample_number >= 0.2 and v > min_sample`. -/
def strongPeptidesOf (samplePeptides : List (List String)) : List String :=
  let n := samplePeptides.length
  ((buildPeptidesCount samplePeptides).filter
      (fun kv => decide ((1 : ℚ) / 5 ≤ (kv.2 : ℚ) / (n : ℚ))
        && decide (minSampleOf n < kv.2))).map
    (fun kv => kv.1)

/-- The final export loop (lines 704-717), restricted to the
low-frequency filter: each sample's peptide column is filtered by
membership in `strong_peptides`, after which `del strong_peptides` runs
inside the loop, so a second sample finds the name unbound. -/
def exportFold :
    Option (List String) → List (List String) →
      Except String (List (List String))
  | _, [] => Except.ok []
  | none, _ :: _ => Except.error "UnboundLocalError: strong_peptides"
  | some sp, peps :: rest =>
    match exportFold none rest with
    | Except.ok out => Except.ok ((peps.filter (fun p => sp.contains p)) :: out)
    | Except.error e => Except.error e

/-! ## Canonical peptide derivation (ibaq/peptide_normalization.py)

`get_canonical_peptide` (lines 75-83) removes every match of the regex
`[\\(\\[].*?[\\)\\]]` and then deletes all `.` and `-` characters.  The regex
is modelled by its scanning semantics: at each position, a match starts at
an opening `(` or `[` and extends lazily to the first closing `)` or `]`;
`.` does not match a newline, so a candidate match containing a newline
before any closer fails and the scan moves on. -/

/-- Is this character one of the regex's opening brackets `(`, `[`? -/
def isOpener (c : Char) : Bool := c = '(' || c = '['

/-- Is this character one of the regex's closing brackets `)`, `]`? -/
def isCloser (c : Char) : Bool := c = ')' || c = ']'

/-- Lazy scan of `.*?[\\)\\]]`: drop characters through the first closer,
failing on end of input or on a newline (which `.` cannot match). -/
def dropThroughCloser : List Char → Option (List Char)
  | [] => none
  | c :: rest =>
    if isCloser c then some rest
    else if c = '\n' then none
    else dropThroughCloser rest

theorem dropThroughCloser_length :
    ∀ {xs ys : List Char}, dropThroughCloser xs = some ys →
      ys.length < xs.length := by
  intro xs
  induction xs with
  | nil => intro ys h; cases h
  | cons c rest ih =>
    intro ys h
    by_cases hc : isCloser c
    · simp only [dropThroughCloser, hc, if_true] at h
      cases h
      exact Nat.lt_succ_self _
    · by_cases hn : c = '\n'
      · subst hn
        simp only [dropThroughCloser] at h
        rw [if_neg hc] at h
        simp at h
      · simp only [dropThroughCloser, hc, hn, Bool.false_eq_true, if_false] at h
        exact Nat.lt_trans (ih h) (Nat.lt_succ_self _)

/-- `re.sub("[\\(\\[].*?[\\)\\]]", "", s)`: scanning left to right, each
opener with a reachable closer starts a match that is deleted; an opener
with no reachable closer is kept and the scan resumes right after it. -/
def removeMods : List Char → List Char
  | [] => []
  | c :: rest =>
    if isOpener c then
      match h : dropThroughCloser rest with
      | some rest2 => removeMods rest2
      | none => c :: removeMods rest
    else c :: removeMods rest
termination_by xs => xs.length
decreasing_by
  · exact Nat.lt_trans (dropThroughCloser_length h) (Nat.lt_succ_self _)
  · exact Nat.lt_succ_self _
  · exact Nat.lt_succ_self _

/-- `get_canonical_peptide` from ibaq/peptide_normalization.py lines 75-83:
strip bracketed modification annotations, then remove `.` and `-`. -/
def get_canonical_peptide (s : List Char) : List Char :=
  (removeMods s).filter (fun c => !(c = '.' || c = '-'))

/-! ## Best-peptidoform selection (both sources)

`get_peptidoform_normalize_intensities` (bin lines 49-73, ibaq lines
255-281): drop rows with missing normalized intensity, group by
(PeptideSequence, PrecursorCharge, SampleID, Condition, BioReplicate), and
keep each group's `idxmax` row — the first row attaining the group maximum
of NormIntensity (default) or of the search-engine score. -/

/-- One feature row, restricted to the columns this function reads. -/
structure FeatureRow : Type where
  proteinName : String
  peptideSequence : String
  peptideCharge : ℕ
  sampleId : String
  condition : String
  bioReplicate : ℕ
  normIntensity : Option ℚ
  searchEngine : ℚ
deriving DecidableEq

/-- The groupby key (PeptideSequence, PrecursorCharge, SampleID, Condition,
BioReplicate). -/
def rowKey (r : FeatureRow) : String × ℕ × String × String × ℕ :=
  (r.peptideSequence, r.peptideCharge, r.sampleId, r.condition, r.bioReplicate)

/-- `idxmax` over a group: the first row attaining the maximal value of
`v`. -/
def idxmaxBy (v : FeatureRow → ℚ) : List FeatureRow → Option FeatureRow
  | [] => none
  | r :: rest =>
    match idxmaxBy v rest with
    | none => some r
    | some b => if v r < v b then some b else some r

/-- `get_peptidoform_normalize_intensities`: dropna on NormIntensity, then
one `idxmax` row per group. -/
def get_peptidoform_normalize_intensities (dataset : List FeatureRow)
    (higher_intensity : Bool := true) : List FeatureRow :=
  let dataset := dataset.filter (fun r => r.normIntensity.isSome)
  let v := if higher_intensity then (fun r : FeatureRow => r.normIntensity.getD 0)
    else (fun r : FeatureRow => r.searchEngine)
  (uniqueInOrder (dataset.map rowKey)).filterMap
    (fun k => idxmaxBy v (dataset.filter (fun r => rowKey r = k)))

/-! ## Batch correction sample-id handling (ibaqpy/commands/correct_batches.py)

`is_valid_sample_id` (lines 16-49) collects the sample ids failing the
structural regex and returns whether none fail;
`get_batch_id_from_sample_names` (lines 52-76) takes each sample's token
before the first hyphen, validates it, and densely factorizes the tokens
in first-appearance order; `run_batch_correction` (lines 79-149) raises
when validation fails, then derives the batch ids (the pivot and the
external correction routine are out-of-scope collaborators). -/

/-- Modelled from the spec: `SAMPLE_ID_REGEX` lives in
ibaqpy/ibaq/ibaqpy_commons.py, which is not part of the sources; the spec
gives the pattern `^[A-Za-z0-9]+(-[A-Za-z0-9]+)*$`.  A full match is one or
more hyphen-separated nonempty alphanumeric parts, i.e. splitting on `-`
yields only nonempty all-alphanumeric pieces. -/
def sampleIdMatches (s : List Char) : Bool :=
  (splitOnChar '-' s).all (fun p => !p.isEmpty && p.all Char.isAlphanum)

/-- The `invalid_samples` list of `is_valid_sample_id` (line 42): every
sample failing the pattern, in order. -/
def is_valid_sample_id_invalid (samples : List (List Char)) :
    List (List Char) :=
  samples.filter (fun s => !sampleIdMatches s)

/-- `is_valid_sample_id`: true iff no sample fails the pattern. -/
def is_valid_sample_id (samples : List (List Char)) : Bool :=
  (is_valid_sample_id_invalid samples).isEmpty

/-- The loop of `get_batch_id_from_sample_names` (lines 65-75): the token
before the first hyphen of each sample, with the two `ValueError` branches
(empty prefix; non-alphanumeric prefix). -/
def extractBatchIds : List (List Char) → Except (List Char) (List (List Char))
  | [] => Except.ok []
  | s :: rest =>
    let parts := splitOnChar '-' s
    if parts.isEmpty || (parts.headD []).isEmpty then
      Except.error (pstr ("Invalid sample name format: ") ++ s
        ++ pstr (". Expected batch-id prefix."))
    else if !(!(parts.headD []).isEmpty && (parts.headD []).all Char.isAlphanum)
        then
      Except.error (pstr ("Invalid batch ID format: ") ++ parts.headD []
        ++ pstr (". Expected alphanumeric characters only."))
    else
      match extractBatchIds rest with
      | Except.ok out => Except.ok (parts.headD [] :: out)
      | Except.error e => Except.error e

/-- `pd.factorize`: dense integer codes in first-appearance order. -/
def factorizeKeys (xs : List (List Char)) : List ℕ :=
  let uniques := uniqueInOrder xs
  xs.map (fun x => uniques.findIdx (fun y => y == x))

/-- `get_batch_id_from_sample_names`: extract the batch tokens, then
factorize them. -/
def get_batch_id_from_sample_names (samples : List (List Char)) :
    Except (List Char) (List ℕ) :=
  match extractBatchIds samples with
  | Except.ok tokens => Except.ok (factorizeKeys tokens)
  | Except.error e => Except.error e

/-- The token before the first hyphen of a sample name. -/
def firstToken (s : List Char) : List Char := (splitOnChar '-' s).headD []

/-- Is this `Except` an error? -/
def isErrorE {ε α : Type} (e : Except ε α) : Bool :=
  match e with
  | Except.error _ => true
  | Except.ok _ => false

/-- The sample-id validation and batch-id derivation steps of
`run_batch_correction` (lines 117-122): raise `ValueError` when
`is_valid_sample_id` fails, else derive the batch ids. -/
def run_batch_correction_ids (samples : List (List Char)) :
    Except (List Char) (List ℕ) :=
  if is_valid_sample_id samples then get_batch_id_from_sample_names samples
  else Except.error (pstr ("Invalid sample IDs found in the data."))

/-- Two rows sharing the peptidoform key with intensities 5 and 7, used as
the witness input. -/
def rowLowC8 : FeatureRow :=
  { proteinName := "P1", peptideSequence := "PEP", peptideCharge := 2,
    sampleId := "S1", condition := "c", bioReplicate := 1,
    normIntensity := some 5, searchEngine := 0 }

/-- The higher-intensity row of the witness input. -/
def rowHighC8 : FeatureRow :=
  { proteinName := "P1", peptideSequence := "PEP", peptideCharge := 2,
    sampleId := "S1", condition := "c", bioReplicate := 1,
    normIntensity := some 7, searchEngine := 0 }

/-! ## Claim theorems: C3 and C4 -/

/-- Claim C3: streaming quantile normalization on samples with
sorted-descending intensities [10, 8, 6] and [9, 7] yields frozen reference
rank averages [9.5, 7.5, 6] (the second sample leaves rank 2 untouched);
the pass-2 mapping sends the first sample to [9.5, 7.5, 6] and the second
to [9.5, 7.5]. -/
theorem qnorm_two_sample_example :
    normIntensityOf
        (foldSample (foldSample [] [some 10, some 8, some 6]) [some 9, some 7])
      = [19 / 2, 15 / 2, 6] ∧
    applyQnorm
        (normIntensityOf
          (foldSample (foldSample [] [some 10, some 8, some 6])
            [some 9, some 7]))
        [some 10, some 8, some 6]
      = [some (19 / 2), some (15 / 2), some 6] ∧
    applyQnorm
        (normIntensityOf
          (foldSample (foldSample [] [some 10, some 8, some 6])
            [some 9, some 7]))
        [some 9, some 7]
      = [some (19 / 2), some (15 / 2)] := by
  norm_num [normIntensityOf, foldSample, foldSampleSorted, sortDesc, insertDesc,
    recalculate, applyQnorm, uniqueInOrder, uniqueInOrderAux, lookupKey,
    List.filterMap_cons, id]

/-- Claim C4: the msstats first pass cannot aggregate a (Run, Channel)
group across two samples — as soon as a second sample contributes rows to a
group key already present, the accumulator looks up the string key
`NormIntensity` instead of the group key and fails with a `KeyError`; one
sample alone is accumulated fine. -/
theorem msstats_cross_sample_group_keyerror :
    msstatsPass1 [[(("r1", "c1"), 5)], [(("r1", "c1"), 7)]]
      = Except.error "KeyError: NormIntensity" ∧
    msstatsPass1 [[(("r1", "c1"), 5)]]
      = Except.ok [(PyKey.tup "r1" "c1", [5])] := by
  constructor <;>
    simp +decide [msstatsPass1, processSampleMsstats, accumGroup, insertKey,
      lookupKey, uniqueInOrder, uniqueInOrderAux, normIntensityKey,
      List.foldlM, Except.bind]

/-! ## Claim theorems: counterexamples for C1, C2, C5 and the C6 bug -/

/-- Claim C1 counterexample: peptide `p` is proposed with protein `A` by
the first batch and with protein `B` by the second, and the conflict
removes its entry — but a third batch proposing `p → B` re-inserts the
mapping, so after the full ingestion pass `p` contributes to protein `B`'s
support count (here `B` is even strong at `min_unique = 1`).  The eviction
is therefore not permanent. -/
theorem support_eviction_not_permanent :
    proposalsOf [("p", "A")] = [("p", "A")] ∧
    proposalsOf [("p", "B")] = [("p", "B")] ∧
    ingestBatches [[("p", "A")], [("p", "B")]] = [] ∧
    ingestBatches [[("p", "A")], [("p", "B")], [("p", "B")]] = [("p", "B")] ∧
    strongProteinsOf (ingestBatches [[("p", "A")], [("p", "B")], [("p", "B")]]) 1
      = ["B"] := by
  refine ⟨?_, ?_, ?_, ?_, ?_⟩ <;> decide

/-- Claim C2 counterexample: `Feature.get_label` on the singleton label set
containing only `TMT126` does not return `LFQ` with no channel map — it
classifies the experiment as TMT 6-plex. -/
theorem feature_get_label_singleton_not_lfq :
    ([pstr ("TMT126")] : List (List Char)).length = 1 ∧
    Feature_get_label [pstr ("TMT126")]
      = some (pstr ("TMT"), some ChoiceDict.tmt6plex) ∧
    Feature_get_label [pstr ("TMT126")] ≠ some (pstr ("LFQ"), none) := by
  refine ⟨?_, ?_, ?_⟩ <;> decide

/-- Claim C5 counterexample: the ibaq-module parser reduces a two-pipe
accession to its MIDDLE id segment, not its trailing name segment (this is
what its own docstring asks for; the streaming script's parser is the one
returning the trailing segment). -/
theorem parse_accession_ibaq_keeps_middle_segment :
    parse_uniprot_accession_ibaq
        (pstr ("tr|CONTAMINANT_Q3SX28|CONTAMINANT_TPM2_BOVIN"))
      = pstr ("CONTAMINANT_Q3SX28") ∧
    parse_uniprot_accession_ibaq
        (pstr ("tr|CONTAMINANT_Q3SX28|CONTAMINANT_TPM2_BOVIN"))
      ≠ pstr ("CONTAMINANT_TPM2_BOVIN") := by
  refine ⟨?_, ?_⟩ <;> decide

/-- Claim C6: the low-frequency filter diverges from the claim on the
code.  In a 10-sample run, peptide `p3` present in exactly the first 3 of
10 samples (30% ≥ 20%, raw count 3 > 1, so the claim keeps it) is NOT in
`strong_peptides`, because the per-sample dict comprehension rebuilds
`peptides_count` from the current sample only; and the export loop fails
on its second sample because `del strong_peptides` runs inside the loop. -/
theorem low_frequency_filter_bug :
    ([["p3", "a"], ["p3", "a"], ["p3", "a"], ["a"], ["a"], ["a"], ["a"],
        ["a"], ["a"], ["a", "b"]] : List (List String)).length = 10 ∧
    (([["p3", "a"], ["p3", "a"], ["p3", "a"], ["a"], ["a"], ["a"], ["a"],
        ["a"], ["a"], ["a", "b"]] : List (List String)).filter
      (fun s => s.contains "p3")).length = 3 ∧
    strongPeptidesOf
        [["p3", "a"], ["p3", "a"], ["p3", "a"], ["a"], ["a"], ["a"], ["a"],
          ["a"], ["a"], ["a", "b"]]
      = ["a"] ∧
    exportFold (some ["a"]) [["a"], ["a"]]
      = Except.error "UnboundLocalError: strong_peptides" := by
  refine ⟨?_, ?_, ?_, ?_⟩
  · decide
  · decide
  · norm_num +decide [strongPeptidesOf, buildPeptidesCount, uniqueInOrder,
      uniqueInOrderAux, lookupKey, minSampleOf, List.foldl]
  · decide

/-! ## Association-list and uniqueInOrder lemmas -/

theorem lookupKey_cons {α β : Type} [DecidableEq α] (r : α × β)
    (t : List (α × β)) (k : α) :
    lookupKey (r :: t) k = if r.1 = k then some r.2 else lookupKey t k := rfl

theorem eraseKey_cons {α β : Type} [DecidableEq α] (r : α × β)
    (t : List (α × β)) (k : α) :
    eraseKey (r :: t) k = if r.1 = k then eraseKey t k else r :: eraseKey t k :=
  rfl

theorem lookupKey_eraseKey_self {α β : Type} [DecidableEq α]
    (t : List (α × β)) (k : α) : lookupKey (eraseKey t k) k = none := by
  induction t with
  | nil => rfl
  | cons r rest ih =>
    rw [eraseKey_cons]
    by_cases hr : r.1 = k
    · rw [if_pos hr]; exact ih
    · rw [if_neg hr, lookupKey_cons, if_neg hr]; exact ih

theorem lookupKey_eraseKey_ne {α β : Type} [DecidableEq α]
    (t : List (α × β)) (k k' : α) (h : k ≠ k') :
    lookupKey (eraseKey t k) k' = lookupKey t k' := by
  induction t with
  | nil => rfl
  | cons r rest ih =>
    rw [eraseKey_cons, lookupKey_cons]
    by_cases hr : r.1 = k
    · have hne : r.1 ≠ k' := fun hc => h (hr ▸ hc)
      rw [if_pos hr, if_neg hne]; exact ih
    · rw [if_neg hr, lookupKey_cons, ih]

theorem lookupKey_map_set {α β : Type} [DecidableEq α]
    (t : List (α × β)) (k k' : α) (v : β) (h : k ≠ k') :
    lookupKey (t.map (fun r => if r.1 = k then (k, v) else r)) k'
      = lookupKey t k' := by
  induction t with
  | nil => rfl
  | cons r rest ih =>
    rw [List.map_cons, lookupKey_cons, lookupKey_cons]
    by_cases hr : r.1 = k
    · have hne : r.1 ≠ k' := fun hc => h (hr ▸ hc)
      rw [if_pos hr, if_neg hne]
      have hkv : ((k, v) : α × β).1 ≠ k' := h
      rw [if_neg hkv]; exact ih
    · rw [if_neg hr, ih]

theorem lookupKey_append_single_ne {α β : Type} [DecidableEq α]
    (t : List (α × β)) (k k' : α) (v : β) (h : k ≠ k') :
    lookupKey (t ++ [(k, v)]) k' = lookupKey t k' := by
  induction t with
  | nil =>
    have hkv : ((k, v) : α × β).1 ≠ k' := h
    rw [List.nil_append, lookupKey_cons, if_neg hkv]
  | cons r rest ih =>
    rw [List.cons_append, lookupKey_cons, lookupKey_cons, ih]

theorem lookupKey_insertKey_ne {α β : Type} [DecidableEq α]
    (t : List (α × β)) (k k' : α) (v : β) (h : k ≠ k') :
    lookupKey (insertKey t k v) k' = lookupKey t k' := by
  unfold insertKey
  by_cases ha : t.any (fun r => r.1 = k)
  · simp only [ha, if_true]
    simpa using lookupKey_map_set t k k' v h
  · simp only [ha, Bool.false_eq_true, if_false]
    simpa using lookupKey_append_single_ne t k k' v h

theorem eraseKey_eq_of_lookup_none {α β : Type} [DecidableEq α]
    (t : List (α × β)) (k : α) (h : lookupKey t k = none) :
    eraseKey t k = t := by
  induction t with
  | nil => rfl
  | cons r rest ih =>
    rw [lookupKey_cons] at h
    by_cases hr : r.1 = k
    · rw [if_pos hr] at h; exact absurd h (by simp)
    · rw [if_neg hr] at h
      rw [eraseKey_cons, if_neg hr, ih h]

theorem uniqueInOrderAux_cons {α : Type} [DecidableEq α] (seen : List α)
    (y : α) (rest : List α) :
    uniqueInOrderAux seen (y :: rest)
      = if seen.contains y then uniqueInOrderAux seen rest
        else y :: uniqueInOrderAux (y :: seen) rest := rfl

theorem uniqueInOrderAux_mem {α : Type} [DecidableEq α]
    (l : List α) (seen : List α) (x : α) :
    x ∈ uniqueInOrderAux seen l ↔ x ∈ l ∧ x ∉ seen := by
  induction l generalizing seen with
  | nil => simp [uniqueInOrderAux]
  | cons y rest ih =>
    rw [uniqueInOrderAux_cons]
    by_cases hy : seen.contains y
    · have hy' : y ∈ seen := by simpa using hy
      rw [if_pos hy]
      simp only [ih, List.mem_cons]
      constructor
      · rintro ⟨hx, hs⟩
        exact ⟨Or.inr hx, hs⟩
      · rintro ⟨hxy | hx, hs⟩
        · subst hxy
          exact absurd hy' hs
        · exact ⟨hx, hs⟩
    · have hy' : y ∉ seen := by simpa using hy
      rw [if_neg hy]
      simp only [List.mem_cons, ih]
      constructor
      · rintro (rfl | ⟨hx, hs⟩)
        · exact ⟨Or.inl rfl, hy'⟩
        · exact ⟨Or.inr hx, fun hc => hs (Or.inr hc)⟩
      · rintro ⟨hxy | hx, hs⟩
        · exact Or.inl hxy
        · by_cases hxy : x = y
          · exact Or.inl hxy
          · refine Or.inr ⟨hx, fun hc => ?_⟩
            rcases hc with h' | h'
            · exact hxy h'
            · exact hs h'

theorem uniqueInOrderAux_nodup {α : Type} [DecidableEq α]
    (l : List α) (seen : List α) : (uniqueInOrderAux seen l).Nodup := by
  induction l generalizing seen with
  | nil => simp [uniqueInOrderAux]
  | cons y rest ih =>
    rw [uniqueInOrderAux_cons]
    by_cases hy : seen.contains y
    · rw [if_pos hy]; exact ih seen
    · rw [if_neg hy]
      refine List.nodup_cons.mpr ⟨fun hc => ?_, ih (y :: seen)⟩
      exact ((uniqueInOrderAux_mem rest (y :: seen) y).mp hc).2
        (List.mem_cons_self _ _)

theorem uniqueInOrder_nodup {α : Type} [DecidableEq α] (l : List α) :
    (uniqueInOrder l).Nodup := uniqueInOrderAux_nodup l []

theorem mem_uniqueInOrder {α : Type} [DecidableEq α] (l : List α) (x : α) :
    x ∈ uniqueInOrder l ↔ x ∈ l := by
  simpa [uniqueInOrder] using uniqueInOrderAux_mem l [] x

/-! ## Protein-support merge lemmas and the amended eviction claim -/

theorem mergeProposal_lookup_ne (t : List (String × String))
    (prop : String × String) (k : String) (h : prop.1 ≠ k) :
    lookupKey (mergeProposal t prop) k = lookupKey t k := by
  unfold mergeProposal
  cases hl : lookupKey t prop.1 with
  | none => exact lookupKey_insertKey_ne t prop.1 k prop.2 h
  | some b =>
    by_cases hb : prop.2 ≠ b
    · show lookupKey (if prop.2 ≠ b then eraseKey t prop.1
          else insertKey t prop.1 prop.2) k = lookupKey t k
      rw [if_pos hb]
      exact lookupKey_eraseKey_ne t prop.1 k h
    · show lookupKey (if prop.2 ≠ b then eraseKey t prop.1
          else insertKey t prop.1 prop.2) k = lookupKey t k
      rw [if_neg hb]
      exact lookupKey_insertKey_ne t prop.1 k prop.2 h

theorem mergeProposal_evict (t : List (String × String))
    (prop : String × String) (b : String)
    (hb : lookupKey t prop.1 = some b) (hab : prop.2 ≠ b) :
    lookupKey (mergeProposal t prop) prop.1 = none := by
  unfold mergeProposal
  rw [hb]
  show lookupKey (if prop.2 ≠ b then eraseKey t prop.1
      else insertKey t prop.1 prop.2) prop.1 = none
  rw [if_pos hab]
  exact lookupKey_eraseKey_self t prop.1

theorem foldl_mergeProposal_lookup (props : List (String × String))
    (t : List (String × String)) (k : String)
    (h : ∀ x ∈ props, x.1 ≠ k) :
    lookupKey (props.foldl mergeProposal t) k = lookupKey t k := by
  induction props generalizing t with
  | nil => rfl
  | cons p ps ih =>
    rw [List.foldl_cons, ih _ (fun x hx => h x (List.mem_cons_of_mem _ hx)),
      mergeProposal_lookup_ne t p k (h p (List.mem_cons_self _ _))]

theorem proposalsOf_map_fst (batch : List (String × String)) :
    (proposalsOf batch).map (fun r => r.1)
      = (uniqueInOrder (batch.map (fun r => r.1))).filter
          (fun pep => (uniqueInOrder (protsOf batch pep)).length = 1) := by
  unfold proposalsOf
  rw [List.map_map]
  exact List.map_id _

theorem proposalsOf_keys_nodup (batch : List (String × String)) :
    ((proposalsOf batch).map (fun r => r.1)).Nodup := by
  rw [proposalsOf_map_fst]
  exact (uniqueInOrder_nodup _).filter _

theorem foldl_mergeBatch_lookup (batches : List (List (String × String)))
    (T : List (String × String)) (k : String)
    (h : ∀ bt ∈ batches, ∀ x ∈ proposalsOf bt, x.1 ≠ k) :
    lookupKey (batches.foldl mergeBatch T) k = lookupKey T k := by
  induction batches generalizing T with
  | nil => rfl
  | cons bt rest ih =>
    rw [List.foldl_cons, ih _ (fun b hb => h b (List.mem_cons_of_mem _ hb))]
    unfold mergeBatch
    exact foldl_mergeProposal_lookup _ T k (h bt (List.mem_cons_self _ _))

/-- Claim C1 (amended): eviction is transient removal, not a permanent
tombstone.  When a batch proposes peptide `p` with protein `a` while the
global table currently maps `p` to a different protein `b`, the entry is
popped, and `p` stays absent through every later batch that does not
propose it — in that case removing `p` from the final table changes
nothing, so `p` contributes to no protein's support count.  (A later batch
that does propose `p` re-inserts a mapping for it, see the
counterexample.) -/
theorem support_eviction_until_reproposed
    (t batch : List (String × String))
    (post : List (List (String × String))) (p a b : String)
    (h1 : lookupKey t p = some b)
    (h2 : (p, a) ∈ proposalsOf batch)
    (hab : a ≠ b)
    (h3 : ∀ bt ∈ post, ∀ x ∈ proposalsOf bt, x.1 ≠ p) :
    lookupKey (post.foldl mergeBatch (mergeBatch t batch)) p = none ∧
    eraseKey (post.foldl mergeBatch (mergeBatch t batch)) p
      = post.foldl mergeBatch (mergeBatch t batch) := by
  have hnone : lookupKey (mergeBatch t batch) p = none := by
    obtain ⟨l1, l2, hsplit⟩ := List.append_of_mem h2
    have hkeys : ((proposalsOf batch).map (fun r => r.1)).Nodup :=
      proposalsOf_keys_nodup batch
    rw [hsplit, List.map_append, List.map_cons] at hkeys
    have hdisj := List.nodup_append.mp hkeys
    have hl1 : ∀ x ∈ l1, x.1 ≠ p := by
      intro x hx hc
      refine hdisj.2.2 (List.mem_map_of_mem _ hx) ?_
      rw [hc]
      exact List.mem_cons_self _ _
    have hl2 : ∀ x ∈ l2, x.1 ≠ p := by
      intro x hx hc
      exact (List.nodup_cons.mp hdisj.2.1).1 (List.mem_map.mpr ⟨x, hx, hc⟩)
    unfold mergeBatch
    rw [hsplit, List.foldl_append, List.foldl_cons,
      foldl_mergeProposal_lookup l2 _ p hl2]
    have hsome : lookupKey (l1.foldl mergeProposal t) p = some b := by
      rw [foldl_mergeProposal_lookup l1 t p hl1]
      exact h1
    exact mergeProposal_evict _ (p, a) b hsome hab
  have hfinal : lookupKey (post.foldl mergeBatch (mergeBatch t batch)) p
      = none := by
    rw [foldl_mergeBatch_lookup post _ p h3]
    exact hnone
  exact ⟨hfinal, eraseKey_eq_of_lookup_none _ p hfinal⟩

/-- Witness for `support_eviction_until_reproposed` at a concrete input:
table `p → A`, a batch proposing `p → B`, and one later batch proposing
only `q → C`. -/
theorem support_eviction_until_reproposed_witness :
    lookupKey
        (([[("q", "C")]] : List (List (String × String))).foldl mergeBatch
          (mergeBatch [("p", "A")] [("p", "B")])) "p" = none ∧
    eraseKey
        (([[("q", "C")]] : List (List (String × String))).foldl mergeBatch
          (mergeBatch [("p", "A")] [("p", "B")])) "p"
      = ([[("q", "C")]] : List (List (String × String))).foldl mergeBatch
          (mergeBatch [("p", "A")] [("p", "B")]) :=
  support_eviction_until_reproposed [("p", "A")] [("p", "B")] [[("q", "C")]]
    "p" "B" "A" (by decide) (by decide) (by decide) (by decide)

/-! ## Label-resolution claim (C2, amended) -/

/-- Claim C2 (amended): for a design table whose label column has exactly
one distinct value, the module-level `get_label` and the streaming
script's `extract_label_from_sdrf` return `LFQ` with no channel map
regardless of the value; `Feature.get_label`, however, returns `LFQ` for a
singleton label set only when the value contains `LABEL FREE` (or
`label free`), and otherwise falls through to TMT/ITRAQ classification
(see the counterexample). -/
theorem label_singleton_lfq (l : List Char) :
    get_label [l] = some (pstr ("LFQ"), none) ∧
    extract_label_from_sdrf_label [l] = some (pstr ("LFQ"), none) ∧
    (containsList l (pstr ("LABEL FREE")) = true →
      Feature_get_label [l] = some (pstr ("LFQ"), none)) := by
  refine ⟨?_, ?_, fun h => ?_⟩
  · simp [get_label]
  · simp [extract_label_from_sdrf_label]
  · simp [Feature_get_label, joinWith, h]

/-- Witness for `label_singleton_lfq` at the concrete single label
`LABEL FREE`. -/
theorem label_singleton_lfq_witness :
    containsList (pstr ("LABEL FREE")) (pstr ("LABEL FREE")) = true ∧
    Feature_get_label [pstr ("LABEL FREE")] = some (pstr ("LFQ"), none) ∧
    get_label [pstr ("LABEL FREE")] = some (pstr ("LFQ"), none) :=
  ⟨by decide, (label_singleton_lfq (pstr ("LABEL FREE"))).2.2 (by decide),
    (label_singleton_lfq (pstr ("LABEL FREE"))).1⟩

/-! ## Split/join/count lemmas for the accession parser (C5) -/

theorem splitOnChar_cons (sep c : Char) (rest : List Char) :
    splitOnChar sep (c :: rest)
      = if c = sep then [] :: splitOnChar sep rest
        else
          match splitOnChar sep rest with
          | [] => [[c]]
          | p :: ps => (c :: p) :: ps := rfl

theorem splitOnChar_no_sep (sep : Char) (s : List Char) (h : sep ∉ s) :
    splitOnChar sep s = [s] := by
  induction s with
  | nil => rfl
  | cons c rest ih =>
    have hc : ¬ c = sep := fun hcc => h (by rw [hcc]; exact List.mem_cons_self _ _)
    have hrest : sep ∉ rest := fun hm => h (List.mem_cons_of_mem _ hm)
    rw [splitOnChar_cons, if_neg hc, ih hrest]

theorem splitOnChar_sep_append (sep : Char) (a b : List Char) (h : sep ∉ a) :
    splitOnChar sep (a ++ sep :: b) = a :: splitOnChar sep b := by
  induction a with
  | nil => simp [splitOnChar_cons]
  | cons c a' ih =>
    have hc : ¬ c = sep := fun hcc => h (by rw [hcc]; exact List.mem_cons_self _ _)
    have ha' : sep ∉ a' := fun hm => h (List.mem_cons_of_mem _ hm)
    rw [List.cons_append, splitOnChar_cons, if_neg hc, ih ha']

theorem countChar_not_mem (ch : Char) (s : List Char) (h : ch ∉ s) :
    countChar ch s = 0 := by
  induction s with
  | nil => rfl
  | cons c rest ih =>
    have hc : ¬ c = ch := fun hcc => h (by rw [← hcc]; exact List.mem_cons_self _ _)
    have hrest : ch ∉ rest := fun hm => h (List.mem_cons_of_mem _ hm)
    simp only [countChar, List.filter_cons, hc, decide_False, Bool.false_eq_true,
      if_false]
    exact ih hrest

theorem countChar_append (ch : Char) (a b : List Char) :
    countChar ch (a ++ b) = countChar ch a + countChar ch b := by
  simp [countChar, List.filter_append]

theorem countChar_cons_self (ch : Char) (s : List Char) :
    countChar ch (ch :: s) = countChar ch s + 1 := by
  simp [countChar, List.filter_cons]

theorem joinWith_cons (sep : Char) (p : List Char) (ps : List (List Char))
    (h : ps ≠ []) :
    joinWith sep (p :: ps) = p ++ sep :: joinWith sep ps := by
  cases ps with
  | nil => exact absurd rfl h
  | cons q qs => rfl

theorem splitOnChar_joinWith (sep : Char) (accs : List (List Char))
    (hne : accs ≠ []) (hall : ∀ a ∈ accs, sep ∉ a) :
    splitOnChar sep (joinWith sep accs) = accs := by
  induction accs with
  | nil => exact absurd rfl hne
  | cons a rest ih =>
    cases hr : rest with
    | nil =>
      exact splitOnChar_no_sep sep a (hall a (List.mem_cons_self _ _))
    | cons b rs =>
      rw [← hr]
      have hrne : rest ≠ [] := by rw [hr]; exact List.cons_ne_nil _ _
      rw [joinWith_cons sep a rest hrne,
        splitOnChar_sep_append sep a _ (hall a (List.mem_cons_self _ _)),
        ih hrne (fun x hx => hall x (List.mem_cons_of_mem _ hx))]

/-- Claim C5 (amended): splitting on `;`, the streaming script's parser
reduces every accession with exactly two pipes (`db|id|name`) to its
trailing name segment, while the ibaq module's parser reduces it to its
middle id segment; both leave accessions with any other pipe count
unchanged, and both rewrite a semicolon-joined field accession by
accession, re-joining with semicolons. -/
theorem parse_accession_amended
    (d i n acc : List Char) (accs : List (List Char))
    (hd : '|' ∉ d) (hi : '|' ∉ i) (hn : '|' ∉ n)
    (hw : ';' ∉ d ++ '|' :: (i ++ '|' :: n))
    (hacc : countChar '|' acc ≠ 2) (hacc' : ';' ∉ acc)
    (hne : accs ≠ []) (hall : ∀ a ∈ accs, ';' ∉ a) :
    parse_uniprot_accession_stream (d ++ '|' :: (i ++ '|' :: n)) = n ∧
    parse_uniprot_accession_ibaq (d ++ '|' :: (i ++ '|' :: n)) = i ∧
    parse_uniprot_accession_stream acc = acc ∧
    parse_uniprot_accession_ibaq acc = acc ∧
    parse_uniprot_accession_stream (joinWith ';' accs)
      = joinWith ';' (accs.map parse_one_accession_stream) ∧
    parse_uniprot_accession_ibaq (joinWith ';' accs)
      = joinWith ';' (accs.map parse_one_accession_ibaq) := by
  have hcount : countChar '|' (d ++ '|' :: (i ++ '|' :: n)) = 2 := by
    rw [countChar_append, countChar_cons_self, countChar_append,
      countChar_cons_self, countChar_not_mem _ _ hd,
      countChar_not_mem _ _ hi, countChar_not_mem _ _ hn]
  have hsplit : splitOnChar '|' (d ++ '|' :: (i ++ '|' :: n)) = [d, i, n] := by
    rw [splitOnChar_sep_append _ _ _ hd, splitOnChar_sep_append _ _ _ hi,
      splitOnChar_no_sep _ _ hn]
  have hone_s : parse_one_accession_stream (d ++ '|' :: (i ++ '|' :: n)) = n := by
    simp only [parse_one_accession_stream]
    rw [if_pos hcount, hsplit]
    rfl
  have hone_i : parse_one_accession_ibaq (d ++ '|' :: (i ++ '|' :: n)) = i := by
    simp only [parse_one_accession_ibaq]
    rw [if_pos hcount, hsplit]
    rfl
  refine ⟨?_, ?_, ?_, ?_, ?_, ?_⟩
  · simp only [parse_uniprot_accession_stream]
    rw [splitOnChar_no_sep _ _ hw, List.map_cons, List.map_nil, hone_s]
    rfl
  · simp only [parse_uniprot_accession_ibaq]
    rw [splitOnChar_no_sep _ _ hw, List.map_cons, List.map_nil, hone_i]
    rfl
  · simp only [parse_uniprot_accession_stream]
    rw [splitOnChar_no_sep _ _ hacc', List.map_cons, List.map_nil]
    simp only [parse_one_accession_stream]
    rw [if_neg hacc]
    rfl
  · simp only [parse_uniprot_accession_ibaq]
    rw [splitOnChar_no_sep _ _ hacc', List.map_cons, List.map_nil]
    simp only [parse_one_accession_ibaq]
    rw [if_neg hacc]
    rfl
  · simp only [parse_uniprot_accession_stream]
    rw [splitOnChar_joinWith _ _ hne hall]
  · simp only [parse_uniprot_accession_ibaq]
    rw [splitOnChar_joinWith _ _ hne hall]

/-- Witness for `parse_accession_amended` at the concrete accession
`sp|P12345|ALBU_HUMAN`. -/
theorem parse_accession_amended_witness :
    parse_uniprot_accession_stream
        (pstr ("sp") ++ '|' :: (pstr ("P12345") ++ '|' :: pstr ("ALBU_HUMAN")))
      = pstr ("ALBU_HUMAN") ∧
    parse_uniprot_accession_ibaq
        (pstr ("sp") ++ '|' :: (pstr ("P12345") ++ '|' :: pstr ("ALBU_HUMAN")))
      = pstr ("P12345") :=
  ⟨(parse_accession_amended (pstr ("sp")) (pstr ("P12345"))
      (pstr ("ALBU_HUMAN")) (pstr ("P67890")) [pstr ("P67890")] (by decide)
      (by decide) (by decide) (by decide) (by decide) (by decide) (by decide)
      (by decide)).1,
    (parse_accession_amended (pstr ("sp")) (pstr ("P12345"))
      (pstr ("ALBU_HUMAN")) (pstr ("P67890")) [pstr ("P67890")] (by decide)
      (by decide) (by decide) (by decide) (by decide) (by decide) (by decide)
      (by decide)).2.1⟩

/-! ## Canonical-peptide idempotence (C7) -/

theorem removeMods_cons_opener_some (c : Char) (rest rest2 : List Char)
    (hc : isOpener c = true) (h : dropThroughCloser rest = some rest2) :
    removeMods (c :: rest) = removeMods rest2 := by
  rw [removeMods]
  simp only [hc, if_true]
  split
  next r2 heq => rw [h] at heq; cases heq; rfl
  next heq => rw [h] at heq; cases heq

theorem removeMods_cons_opener_none (c : Char) (rest : List Char)
    (hc : isOpener c = true) (h : dropThroughCloser rest = none) :
    removeMods (c :: rest) = c :: removeMods rest := by
  rw [removeMods]
  simp only [hc, if_true]
  split
  next r2 heq => rw [h] at heq; cases heq
  next heq => rfl

theorem removeMods_cons_not_opener (c : Char) (rest : List Char)
    (hc : ¬ isOpener c = true) :
    removeMods (c :: rest) = c :: removeMods rest := by
  rw [removeMods]
  simp [hc]

theorem isOpener_not_closer (c : Char) (h : isOpener c = true) :
    isCloser c = false ∧ c ≠ '\n' ∧ (!(c = '.' || c = '-')) = true := by
  have h' : c = '(' ∨ c = '[' := by simpa [isOpener] using h
  rcases h' with rfl | rfl <;> exact ⟨by decide, by decide, by decide⟩

theorem dropThroughCloser_removeMods (l : List Char)
    (h : dropThroughCloser l = none) :
    dropThroughCloser (removeMods l) = none := by
  induction l with
  | nil => simpa [removeMods] using h
  | cons d rest ih =>
    by_cases hcl : isCloser d
    · simp only [dropThroughCloser, hcl, if_true] at h
      cases h
    · by_cases hnl : d = '\n'
      · subst hnl
        have hop : ¬ isOpener '\n' = true := by decide
        rw [removeMods_cons_not_opener _ _ hop]
        simp only [dropThroughCloser]
        rw [if_neg hcl]
        simp
      · simp only [dropThroughCloser] at h
        rw [if_neg hcl, if_neg hnl] at h
        by_cases hop : isOpener d
        · rw [removeMods_cons_opener_none d rest hop h]
          simp only [dropThroughCloser]
          rw [if_neg hcl, if_neg hnl]
          exact ih h
        · rw [removeMods_cons_not_opener d rest hop]
          simp only [dropThroughCloser]
          rw [if_neg hcl, if_neg hnl]
          exact ih h

theorem removeMods_length (l : List Char) :
    (removeMods l).length ≤ l.length := by
  induction l using removeMods.induct with
  | case1 => simp [removeMods]
  | case2 c rest hc rest2 h ih =>
    rw [removeMods_cons_opener_some c rest rest2 hc h]
    have h2 := dropThroughCloser_length h
    simp only [List.length_cons]
    omega
  | case3 c rest hc h ih =>
    rw [removeMods_cons_opener_none c rest hc h]
    simp only [List.length_cons]
    omega
  | case4 c rest hc ih =>
    rw [removeMods_cons_not_opener c rest hc]
    simp only [List.length_cons]
    omega

theorem removeMods_idem (l : List Char) :
    removeMods (removeMods l) = removeMods l := by
  induction l using removeMods.induct with
  | case1 => simp [removeMods]
  | case2 c rest hc rest2 h ih =>
    rw [removeMods_cons_opener_some c rest rest2 hc h]
    exact ih
  | case3 c rest hc h ih =>
    rw [removeMods_cons_opener_none c rest hc h,
      removeMods_cons_opener_none c (removeMods rest) hc
        (dropThroughCloser_removeMods rest h), ih]
  | case4 c rest hc ih =>
    rw [removeMods_cons_not_opener c rest hc,
      removeMods_cons_not_opener c (removeMods rest) hc, ih]

theorem dropThroughCloser_filter (l : List Char)
    (h : dropThroughCloser l = none) :
    dropThroughCloser (l.filter (fun c => !(c = '.' || c = '-'))) = none := by
  induction l with
  | nil => simpa using h
  | cons d rest ih =>
    by_cases hcl : isCloser d
    · simp only [dropThroughCloser, hcl, if_true] at h
      cases h
    · by_cases hnl : d = '\n'
      · subst hnl
        rw [List.filter_cons, if_pos (by decide :
          (!('\n' = '.' || '\n' = '-')) = true)]
        simp only [dropThroughCloser]
        rw [if_neg hcl]
        simp
      · simp only [dropThroughCloser] at h
        rw [if_neg hcl, if_neg hnl] at h
        rw [List.filter_cons]
        by_cases hd : (!(d = '.' || d = '-')) = true
        · rw [if_pos hd]
          simp only [dropThroughCloser]
          rw [if_neg hcl, if_neg hnl]
          exact ih h
        · rw [if_neg hd]
          exact ih h

theorem removeMods_filter_fixed (v : List Char) (hv : removeMods v = v) :
    removeMods (v.filter (fun c => !(c = '.' || c = '-')))
      = v.filter (fun c => !(c = '.' || c = '-')) := by
  induction v with
  | nil => simp [removeMods]
  | cons c rest ih =>
    by_cases hop : isOpener c
    · cases hdrop : dropThroughCloser rest with
      | some r2 =>
        exfalso
        have heq := removeMods_cons_opener_some c rest r2 hop hdrop
        rw [hv] at heq
        have h1 : (c :: rest).length = (removeMods r2).length := by rw [heq]
        have h2 := removeMods_length r2
        have h3 := dropThroughCloser_length hdrop
        simp only [List.length_cons] at h1
        omega
      | none =>
        have hv' : removeMods rest = rest := by
          have h1 := removeMods_cons_opener_none c rest hop hdrop
          rw [h1] at hv
          simpa using hv
        have hkeep := (isOpener_not_closer c hop).2.2
        rw [List.filter_cons, if_pos hkeep,
          removeMods_cons_opener_none c _ hop
            (dropThroughCloser_filter rest hdrop), ih hv']
    · have hv' : removeMods rest = rest := by
        have h1 := removeMods_cons_not_opener c rest hop
        rw [h1] at hv
        simpa using hv
      rw [List.filter_cons]
      by_cases hd : (!(c = '.' || c = '-')) = true
      · rw [if_pos hd, removeMods_cons_not_opener c _ hop, ih hv']
      · rw [if_neg hd]
        exact ih hv'

/-- Claim C7: canonical-peptide derivation is idempotent — for every
peptide-sequence string,
`get_canonical_peptide (get_canonical_peptide s) = get_canonical_peptide s`. -/
theorem get_canonical_peptide_idem (s : List Char) :
    get_canonical_peptide (get_canonical_peptide s)
      = get_canonical_peptide s := by
  unfold get_canonical_peptide
  rw [removeMods_filter_fixed (removeMods s) (removeMods_idem s),
    List.filter_filter]
  simp [Bool.and_self]

/-! ## Best-peptidoform selection (C8) -/

theorem idxmaxBy_ne_none (v : FeatureRow → ℚ) (r : FeatureRow)
    (rest : List FeatureRow) : idxmaxBy v (r :: rest) ≠ none := by
  simp only [idxmaxBy]
  cases hrec : idxmaxBy v rest with
  | none => simp
  | some b' => by_cases hlt : v r < v b' <;> simp [hlt]

theorem idxmaxBy_mem (v : FeatureRow → ℚ) (l : List FeatureRow)
    (b : FeatureRow) (h : idxmaxBy v l = some b) : b ∈ l := by
  induction l generalizing b with
  | nil => cases h
  | cons r rest ih =>
    simp only [idxmaxBy] at h
    cases hrec : idxmaxBy v rest with
    | none =>
      rw [hrec] at h
      dsimp only at h
      cases h
      exact List.mem_cons_self _ _
    | some b' =>
      rw [hrec] at h
      dsimp only at h
      by_cases hlt : v r < v b'
      · rw [if_pos hlt] at h
        cases h
        exact List.mem_cons_of_mem _ (ih _ hrec)
      · rw [if_neg hlt] at h
        cases h
        exact List.mem_cons_self _ _

theorem idxmaxBy_max (v : FeatureRow → ℚ) (l : List FeatureRow)
    (b : FeatureRow) (h : idxmaxBy v l = some b) :
    ∀ x ∈ l, v x ≤ v b := by
  induction l generalizing b with
  | nil => cases h
  | cons r rest ih =>
    intro x hx
    simp only [idxmaxBy] at h
    cases hrec : idxmaxBy v rest with
    | none =>
      cases rest with
      | nil =>
        rw [hrec] at h
        dsimp only at h
        cases h
        rcases List.mem_cons.mp hx with rfl | hx'
        · exact le_refl _
        · cases hx'
      | cons a as => exact absurd hrec (idxmaxBy_ne_none v a as)
    | some b' =>
      rw [hrec] at h
      dsimp only at h
      by_cases hlt : v r < v b'
      · rw [if_pos hlt] at h
        cases h
        rcases List.mem_cons.mp hx with rfl | hx'
        · exact le_of_lt hlt
        · exact ih _ hrec x hx'
      · rw [if_neg hlt] at h
        cases h
        rcases List.mem_cons.mp hx with rfl | hx'
        · exact le_refl _
        · exact le_trans (ih _ hrec x hx') (le_of_not_lt hlt)

theorem filterMap_map_keys {α β : Type} (keys : List α) (f : α → Option β)
    (g : β → α) (hfg : ∀ k r, f k = some r → g r = k) :
    (keys.filterMap f).map g = keys.filter (fun k => (f k).isSome) := by
  induction keys with
  | nil => rfl
  | cons k ks ih =>
    cases hf : f k with
    | none => simp [List.filterMap_cons, List.filter_cons, hf, ih]
    | some r => simp [List.filterMap_cons, List.filter_cons, hf, hfg k r hf, ih]

/-- Claim C8: after best-peptidoform selection the retained rows have
pairwise distinct (sequence, charge, sample, condition, replicate) keys —
at most one row per key — each retained row comes from the input with a
present normalized intensity, and under the default higher-intensity mode
a retained row's normalized intensity is maximal among the input rows
sharing its key. -/
theorem peptidoform_selection_unique_and_max (dataset : List FeatureRow) :
    ((get_peptidoform_normalize_intensities dataset true).map rowKey).Nodup ∧
    (∀ r ∈ get_peptidoform_normalize_intensities dataset true,
      r ∈ dataset ∧ r.normIntensity.isSome = true) ∧
    (∀ r ∈ get_peptidoform_normalize_intensities dataset true,
      ∀ r' ∈ dataset, r'.normIntensity.isSome = true → rowKey r' = rowKey r →
        r'.normIntensity.getD 0 ≤ r.normIntensity.getD 0) := by
  have hout : get_peptidoform_normalize_intensities dataset true
      = (uniqueInOrder ((dataset.filter
          (fun r => r.normIntensity.isSome)).map rowKey)).filterMap
        (fun k => idxmaxBy (fun r => r.normIntensity.getD 0)
          ((dataset.filter (fun r => r.normIntensity.isSome)).filter
            (fun r => rowKey r = k))) := by
    simp [get_peptidoform_normalize_intensities]
  have hfg : ∀ k r,
      idxmaxBy (fun r => r.normIntensity.getD 0)
          ((dataset.filter (fun r => r.normIntensity.isSome)).filter
            (fun r => rowKey r = k)) = some r →
        rowKey r = k := by
    intro k r h
    have hmem := idxmaxBy_mem _ _ _ h
    have := (List.mem_filter.mp hmem).2
    simpa using this
  refine ⟨?_, ?_, ?_⟩
  · rw [hout, filterMap_map_keys _ _ _ hfg]
    exact (uniqueInOrder_nodup _).filter _
  · intro r hr
    rw [hout] at hr
    obtain ⟨k, _, hk⟩ := List.mem_filterMap.mp hr
    have hmem := idxmaxBy_mem _ _ _ hk
    have h1 := (List.mem_filter.mp hmem).1
    exact List.mem_filter.mp h1
  · intro r hr r' hr' hsome hkey
    rw [hout] at hr
    obtain ⟨k, _, hk⟩ := List.mem_filterMap.mp hr
    have hrk : rowKey r = k := hfg k r hk
    have hr'mem : r' ∈ (dataset.filter
        (fun r => r.normIntensity.isSome)).filter (fun r => rowKey r = k) := by
      refine List.mem_filter.mpr ⟨List.mem_filter.mpr ⟨hr', ?_⟩, ?_⟩
      · simpa using hsome
      · simp [hkey, hrk]
    exact idxmaxBy_max _ _ _ hk r' hr'mem

/-- Witness for `peptidoform_selection_unique_and_max` on the two-row
input: the retained row dominates the discarded one. -/
theorem peptidoform_selection_unique_and_max_witness :
    rowHighC8 ∈ get_peptidoform_normalize_intensities [rowLowC8, rowHighC8]
        true ∧
    rowLowC8.normIntensity.getD 0 ≤ rowHighC8.normIntensity.getD 0 :=
  ⟨by decide,
    (peptidoform_selection_unique_and_max [rowLowC8, rowHighC8]).2.2
      rowHighC8 (by decide) rowLowC8 (by decide) (by decide) (by decide)⟩

/-! ## Batch-correction sample-id claims (C9, C10) -/

theorem splitOnChar_ne_nil (sep : Char) (s : List Char) :
    splitOnChar sep s ≠ [] := by
  cases s with
  | nil => simp [splitOnChar]
  | cons c rest =>
    rw [splitOnChar_cons]
    by_cases h : c = sep
    · simp [h]
    · rw [if_neg h]
      cases splitOnChar sep rest <;> simp

theorem is_valid_sample_id_iff (samples : List (List Char)) :
    is_valid_sample_id samples = true ↔
      ∀ s ∈ samples, sampleIdMatches s = true := by
  simp [is_valid_sample_id, is_valid_sample_id_invalid, List.isEmpty_iff,
    List.filter_eq_nil_iff]

theorem headD_mem_of_ne_nil {α : Type} (l : List α) (d : α) (h : l ≠ []) :
    l.headD d ∈ l := by
  cases l with
  | nil => exact absurd rfl h
  | cons a as => exact List.mem_cons_self _ _

theorem sampleIdMatches_parts (s : List Char) (h : sampleIdMatches s = true) :
    (firstToken s).isEmpty = false ∧
    (firstToken s).all Char.isAlphanum = true := by
  have hall := List.all_eq_true.mp h
  have hmem : firstToken s ∈ splitOnChar '-' s :=
    headD_mem_of_ne_nil _ _ (splitOnChar_ne_nil '-' s)
  have hand := hall _ hmem
  simp at hand
  refine ⟨?_, ?_⟩
  · cases hft : firstToken s with
    | nil => exact absurd hft hand.1
    | cons a as => rfl
  · rw [List.all_eq_true]
    intro x hx
    exact hand.2 x hx

theorem extractBatchIds_ok (samples : List (List Char))
    (h : ∀ s ∈ samples, sampleIdMatches s = true) :
    extractBatchIds samples = Except.ok (samples.map firstToken) := by
  induction samples with
  | nil => rfl
  | cons s rest ih =>
    have hs := h s (List.mem_cons_self _ _)
    obtain ⟨hne, halnum⟩ := sampleIdMatches_parts s hs
    have hpne : (splitOnChar '-' s).isEmpty = false := by
      have := splitOnChar_ne_nil '-' s
      cases hsp : splitOnChar '-' s with
      | nil => exact absurd hsp this
      | cons a as => rfl
    simp only [extractBatchIds]
    rw [if_neg (by
      rw [hpne]
      show ¬ (false || (firstToken s).isEmpty) = true
      rw [hne]
      simp)]
    rw [if_neg (by
      show ¬ (!(!(firstToken s).isEmpty && (firstToken s).all Char.isAlphanum))
          = true
      rw [hne, halnum]
      simp)]
    rw [ih (fun x hx => h x (List.mem_cons_of_mem _ hx))]
    rfl

theorem getD_map_of_lt {α β : Type} (l : List α) (f : α → β) (m : ℕ)
    (d : α) (d' : β) (hm : m < l.length) :
    (l.map f).getD m d' = f (l.getD m d) := by
  induction l generalizing m with
  | nil => exact absurd hm (by simp)
  | cons a as ih =>
    cases m with
    | zero => rfl
    | succ m' =>
      simp only [List.map_cons, List.getD_cons_succ]
      exact ih m' (Nat.lt_of_succ_lt_succ (by simpa using hm))

theorem getD_mem_of_lt {α : Type} (l : List α) (m : ℕ) (d : α)
    (hm : m < l.length) : l.getD m d ∈ l := by
  induction l generalizing m with
  | nil => exact absurd hm (by simp)
  | cons a as ih =>
    cases m with
    | zero => exact List.mem_cons_self _ _
    | succ m' =>
      rw [List.getD_cons_succ]
      exact List.mem_cons_of_mem _
        (ih m' (Nat.lt_of_succ_lt_succ (by simpa using hm)))

theorem findIdx_beq_of_mem (x : List Char) (us : List (List Char))
    (h : x ∈ us) :
    us.findIdx (fun y => y == x) < us.length ∧
    us.getD (us.findIdx (fun y => y == x)) [] = x := by
  induction us with
  | nil => cases h
  | cons u us ih =>
    by_cases hu : (u == x) = true
    · have h0 : (u :: us).findIdx (fun y => y == x) = 0 := by
        simp [List.findIdx_cons, hu]
      rw [h0]
      exact ⟨by simp, eq_of_beq hu⟩
    · have hx : x ∈ us := by
        rcases List.mem_cons.mp h with rfl | hx'
        · exact absurd (by simp) hu
        · exact hx'
      have hsucc : (u :: us).findIdx (fun y => y == x)
          = us.findIdx (fun y => y == x) + 1 := by
        simp [List.findIdx_cons, hu]
      obtain ⟨hlt, hget⟩ := ih hx
      rw [hsucc]
      constructor
      · simpa using Nat.succ_lt_succ hlt
      · rw [List.getD_cons_succ]
        exact hget

theorem factorizeKeys_getD_eq_iff (xs : List (List Char)) (i j : ℕ)
    (hi : i < xs.length) (hj : j < xs.length) :
    (factorizeKeys xs).getD i 0 = (factorizeKeys xs).getD j 0 ↔
      xs.getD i [] = xs.getD j [] := by
  have hmap : ∀ m, m < xs.length → (factorizeKeys xs).getD m 0
      = (uniqueInOrder xs).findIdx (fun y => y == xs.getD m []) := by
    intro m hm
    exact getD_map_of_lt xs _ m [] 0 hm
  have hmemi : xs.getD i [] ∈ uniqueInOrder xs :=
    (mem_uniqueInOrder _ _).mpr (getD_mem_of_lt xs i [] hi)
  have hmemj : xs.getD j [] ∈ uniqueInOrder xs :=
    (mem_uniqueInOrder _ _).mpr (getD_mem_of_lt xs j [] hj)
  obtain ⟨hlti, hgeti⟩ := findIdx_beq_of_mem (xs.getD i []) _ hmemi
  obtain ⟨hltj, hgetj⟩ := findIdx_beq_of_mem (xs.getD j []) _ hmemj
  rw [hmap i hi, hmap j hj]
  constructor
  · intro hij
    rw [← hgeti, ← hgetj, hij]
  · intro hij
    rw [hij]

/-- Claim C10: when every sample name passes `is_valid_sample_id`, the
batch-id derivation raises no error (both `ValueError` branches are
unreachable), returns one integer id per sample, and assigns two samples
equal ids exactly when they share the token before the first hyphen. -/
theorem batch_ids_ok_of_valid (samples : List (List Char))
    (h : is_valid_sample_id samples = true) :
    get_batch_id_from_sample_names samples
      = Except.ok (factorizeKeys (samples.map firstToken)) ∧
    (factorizeKeys (samples.map firstToken)).length = samples.length ∧
    ∀ i j, i < samples.length → j < samples.length →
      ((factorizeKeys (samples.map firstToken)).getD i 0
          = (factorizeKeys (samples.map firstToken)).getD j 0 ↔
        firstToken (samples.getD i []) = firstToken (samples.getD j [])) := by
  have hok : extractBatchIds samples = Except.ok (samples.map firstToken) :=
    extractBatchIds_ok samples ((is_valid_sample_id_iff samples).mp h)
  refine ⟨?_, ?_, ?_⟩
  · simp [get_batch_id_from_sample_names, hok]
  · simp [factorizeKeys]
  · intro i j hi hj
    have hi' : i < (samples.map firstToken).length := by simpa using hi
    have hj' : j < (samples.map firstToken).length := by simpa using hj
    rw [factorizeKeys_getD_eq_iff _ i j hi' hj',
      getD_map_of_lt samples firstToken i [] [] hi,
      getD_map_of_lt samples firstToken j [] [] hj]

/-- Witness for `batch_ids_ok_of_valid` on the samples
`[A-1, B-2, A-3]`. -/
theorem batch_ids_ok_of_valid_witness :
    get_batch_id_from_sample_names
        [pstr ("A-1"), pstr ("B-2"), pstr ("A-3")]
      = Except.ok (factorizeKeys
          (([pstr ("A-1"), pstr ("B-2"), pstr ("A-3")]).map firstToken)) ∧
    ((factorizeKeys (([pstr ("A-1"), pstr ("B-2"), pstr ("A-3")]).map
        firstToken)).getD 0 0
      = (factorizeKeys (([pstr ("A-1"), pstr ("B-2"), pstr ("A-3")]).map
          firstToken)).getD 2 0 ↔
      firstToken (([pstr ("A-1"), pstr ("B-2"), pstr ("A-3")]).getD 0 [])
        = firstToken (([pstr ("A-1"), pstr ("B-2"),
            pstr ("A-3")]).getD 2 [])) :=
  ⟨(batch_ids_ok_of_valid [pstr ("A-1"), pstr ("B-2"), pstr ("A-3")]
      (by decide)).1,
    (batch_ids_ok_of_valid [pstr ("A-1"), pstr ("B-2"), pstr ("A-3")]
      (by decide)).2.2 0 2 (by decide) (by decide)⟩

/-- Claim C9: batch correction fails (with the `Invalid sample IDs` error)
exactly when some sample name fails the structural check; the validator's
offender list contains exactly the failing sample ids; `abc_123` is
rejected and `STUDY1-S01` accepted. -/
theorem invalid_sample_id_exactly (samples : List (List Char)) :
    (isErrorE (run_batch_correction_ids samples) = true ↔
      ∃ s ∈ samples, sampleIdMatches s = false) ∧
    (∀ s, s ∈ is_valid_sample_id_invalid samples ↔
      s ∈ samples ∧ sampleIdMatches s = false) ∧
    sampleIdMatches (pstr ("abc_123")) = false ∧
    sampleIdMatches (pstr ("STUDY1-S01")) = true := by
  refine ⟨?_, ?_, by decide, by decide⟩
  · by_cases hv : is_valid_sample_id samples = true
    · have hok : extractBatchIds samples
          = Except.ok (samples.map firstToken) :=
        extractBatchIds_ok samples ((is_valid_sample_id_iff samples).mp hv)
      constructor
      · intro herr
        exfalso
        unfold run_batch_correction_ids at herr
        rw [if_pos hv] at herr
        unfold get_batch_id_from_sample_names at herr
        rw [hok] at herr
        simp [isErrorE] at herr
      · rintro ⟨s, hs, hbad⟩
        have := (is_valid_sample_id_iff samples).mp hv s hs
        rw [hbad] at this
        cases this
    · constructor
      · intro _
        have hnot := hv
        rw [is_valid_sample_id_iff] at hnot
        push_neg at hnot
        obtain ⟨s, hs, hbad⟩ := hnot
        exact ⟨s, hs, by simpa using hbad⟩
      · intro _
        unfold run_batch_correction_ids
        rw [if_neg hv]
        rfl
  · intro s
    simp [is_valid_sample_id_invalid, List.mem_filter, Bool.not_eq_true']

/-- Witness for `invalid_sample_id_exactly` on the samples
`[abc_123, STUDY1-S01]`: the run fails. -/
theorem invalid_sample_id_exactly_witness :
    isErrorE (run_batch_correction_ids
      [pstr ("abc_123"), pstr ("STUDY1-S01")]) = true :=
  (invalid_sample_id_exactly [pstr ("abc_123"), pstr ("STUDY1-S01")]).1.mpr
    ⟨pstr ("abc_123"), by decide, by decide⟩
